import Mathlib

/-!
Shallow embedding of the `linkedin-ds-scraper` core pipeline
(`src/csv_store.py`, `src/collector.py`, `src/linkedin_scraper.py`,
`src/config.py`) together with proofs about the claims of the spec.

Strings are modelled as `List Char`.  File contents of the CSV store are
modelled as the list of data rows (the fixed 7-column header is implicit in
the `StoredRow` structure).  External HTTP traffic (the listing-search
endpoint and the per-posting detail endpoint) is modelled by oracle
functions passed as parameters.  The text-processing helpers mirror the
ASCII behaviour of Python's `str.strip`, `str.lower` and the `re` module
on the concrete patterns used by the source.
-/

namespace Scraper

/-! ### Python string helpers -/

/-- Python whitespace (`str.strip` / regex `\s`), ASCII fragment. -/
def pySpace (c : Char) : Bool :=
  c == ' ' || c == '\t' || c == '\n' || c == '\r' || c == '\x0b' || c == '\x0c'

/-- Python `str.strip()`: drop whitespace from both ends. -/
def pstrip (s : List Char) : List Char :=
  ((s.dropWhile pySpace).reverse.dropWhile pySpace).reverse

/-! ### Data model (`linkedin_scraper.JobPosting`, CSV rows) -/

/-- Model of `linkedin_scraper.JobPosting`. -/
structure JobPosting where
  title : List Char
  company : List Char
  location : List Char
  degree : List Char
  years_experience : List Char
  job_link : List Char
deriving DecidableEq, Repr

/-- One data row of the CSV store, in the fixed column order
`collected_at, job_title, company_name, location, required_degree,
required_years_experience, job_link` (`csv_store.COLUMNS`). -/
structure StoredRow where
  collected_at : List Char
  job_title : List Char
  company_name : List Char
  location : List Char
  required_degree : List Char
  required_years_experience : List Char
  job_link : List Char
deriving DecidableEq, Repr

/-- Row construction `[timestamp, *job.as_row()]` (`csv_store.append_rows`, line 67). -/
def mkRow (ts : List Char) (j : JobPosting) : StoredRow :=
  ⟨ts, j.title, j.company, j.location, j.degree, j.years_experience, j.job_link⟩

/-- The dedup identity of a stored row: the stored link with surrounding
whitespace stripped (`(row.get("job_link") or "").strip()`). -/
def identity (r : StoredRow) : List Char :=
  pstrip r.job_link

/-- Model of `csv_store._load_existing_links`: the (ordered) list of non-empty
identities present in the store; the Python code builds a set, which we
model by list membership. -/
def loadLinks (rows : List StoredRow) : List (List Char) :=
  rows.filterMap fun r => if identity r = [] then none else some (identity r)

/-! ### `csv_store.deduplicate_csv` -/

/-- Loop body of `deduplicate_csv` (lines 94-104): walk the rows carrying
the set of seen non-empty links; a row whose non-empty link was already
seen is dropped and counted, every other row is kept (its link, when
non-empty, is added to the seen set).  Returns (surviving rows, removed
count). -/
def dedupAux : List (List Char) → List StoredRow → List StoredRow × Nat
  | _, [] => ([], 0)
  | seen, r :: rs =>
    if identity r ≠ [] ∧ identity r ∈ seen then
      ((dedupAux seen rs).1, (dedupAux seen rs).2 + 1)
    else
      ((r :: (dedupAux (if identity r ≠ [] then identity r :: seen else seen) rs).1),
        (dedupAux (if identity r ≠ [] then identity r :: seen else seen) rs).2)

/-- Model of `csv_store.deduplicate_csv` on the in-memory row list: returns the
surviving rows and the number of rows removed.  (The Python function
returns only the count and rewrites the file exactly when the count is
positive; the file-level write events are modelled separately below.) -/
def deduplicate_csv (rows : List StoredRow) : List StoredRow × Nat :=
  dedupAux [] rows

/-! ### `csv_store.append_rows` -/

/-- Loop body of `append_rows` (lines 59-67): each job whose stripped link
is non-empty and already known is skipped; every other job is accepted as
a new row stamped with the given timestamp (a non-empty link is added to
the known set, so in-batch duplicates are rejected too). -/
def acceptJobs (ts : List Char) : List (List Char) → List JobPosting → List StoredRow
  | _, [] => []
  | links, j :: js =>
    if pstrip j.job_link ≠ [] ∧ pstrip j.job_link ∈ links then
      acceptJobs ts links js
    else
      mkRow ts j ::
        acceptJobs ts (if pstrip j.job_link ≠ [] then pstrip j.job_link :: links else links) js

/-- Model of `csv_store.append_rows` at the level of store contents: returns the new
store contents and the count of rows appended.  When nothing was accepted
the store is untouched and 0 is returned; otherwise the accepted rows are
appended and `deduplicate_csv` runs (which rewrites the file only when it
removed something, so the resulting contents are the deduplicated rows in
that case and the plainly appended rows otherwise). -/
def append_rows (ts : List Char) (jobs : List JobPosting) (store : List StoredRow) :
    List StoredRow × Nat :=
  let accepted := acceptJobs ts (loadLinks store) jobs
  if accepted = [] then (store, 0)
  else
    (if (deduplicate_csv (store ++ accepted)).2 = 0 then store ++ accepted
     else (deduplicate_csv (store ++ accepted)).1,
     accepted.length)

/-! ### A small backtracking matcher for the concrete `re` patterns

The source uses Python's `re` module on a handful of fixed patterns.  We
embed exactly the constructs those patterns use: case-insensitive literal
characters, character classes, concatenation, prioritised alternation
(`|`), greedy option (`?`) and a greedy star over a character class
(`\s*`).  `run r cs` returns the list of possible remaining suffixes after
matching `r` at the head of `cs`, in Python's backtracking priority order
(greedy first, left alternative first); the first full match in this order
is the one `re` commits to. -/

inductive Rx where
  | eps
  | chr (p : Char → Bool)
  | seq (a b : Rx)
  | alt (a b : Rx)
  | opt (a : Rx)
  | star (p : Char → Bool)

/-- Greedy `p*`: possible remainders, longest consumption first. -/
def starRun (p : Char → Bool) : List Char → List (List Char)
  | [] => [[]]
  | c :: cs => if p c then starRun p cs ++ [c :: cs] else [c :: cs]

/-- Backtracking matcher: all remainders in priority order. -/
def run : Rx → List Char → List (List Char)
  | .eps, cs => [cs]
  | .chr _, [] => []
  | .chr p, c :: cs => if p c then [cs] else []
  | .seq a b, cs => (run a cs).flatMap (run b)
  | .alt a b, cs => run a cs ++ run b cs
  | .opt a, cs => run a cs ++ [cs]
  | .star p, cs => starRun p cs

/-- Case-insensitive literal character (the patterns carry `re.IGNORECASE`;
we compare lowercased input against the lowercase pattern letter). -/
def chC (c : Char) : Rx := .chr fun x => x.toLower == c

/-- Case-insensitive literal string. -/
def strC : List Char → Rx
  | [] => .eps
  | c :: cs => .seq (chC c) (strC cs)

/-- Pattern `\s*`. -/
def wsS : Rx := .star pySpace

/-- Pattern `\s+`. -/
def wsP : Rx := .seq (.chr pySpace) wsS

/-- An optional literal dot, `\.?`. -/
def optDot : Rx := .opt (chC '.')

/-- Does the pattern necessarily consume at least one character?  (Used to
justify the fuel bounds of the scanning loops.) -/
def consumesPos : Rx → Bool
  | .eps => false
  | .chr _ => true
  | .seq a b => consumesPos a || consumesPos b
  | .alt a b => consumesPos a && consumesPos b
  | .opt _ => false
  | .star _ => false

/-! ### Years-of-experience extraction (`linkedin_scraper._extract_years`)

`YEARS_RANGE_PATTERN = (?P<min>\d{1,2})\s*(?:-|to)\s*(?P<max>\d{1,2})\s*(?:years?|yrs?)`
`YEARS_PATTERN = (?P<years>\d{1,2})(?P<plus>\s*\+)?\s*(?:years?|yrs?)\s+of\s+experience`
`YEARS_FALLBACK_PATTERN = (?:at\s+least\s+|minimum\s+of\s+)?(?P<years>\d{1,2})(?P<plus>\s*\+)?\s*(?:years?|yrs?)`

The digit groups are the only captures the source reads, so they are
matched by a dedicated function returning the captured digits. -/

/-- Greedy `\d{1,2}`: (captured digits, remainder), two digits first. -/
def digits12 : List Char → List (List Char × List Char)
  | [] => []
  | [c] => if c.isDigit then [([c], [])] else []
  | c1 :: c2 :: rest =>
    if c1.isDigit then
      if c2.isDigit then [([c1, c2], rest), ([c1], c2 :: rest)]
      else [([c1], c2 :: rest)]
    else []

/-- Pattern `(?:years?|yrs?)`. -/
def yearsSuffix : Rx :=
  .alt (.seq (strC ("year".toList)) (.opt (chC 's')))
       (.seq (strC ("yr".toList)) (.opt (chC 's')))

/-- Pattern `\s*(?:-|to)\s*` (between the two digit groups of the range pattern). -/
def rangeSep : Rx := .seq wsS (.seq (.alt (chC '-') (strC ("to".toList))) wsS)

/-- Pattern `\s*(?:years?|yrs?)` (tail of the range pattern). -/
def rangeEnd : Rx := .seq wsS yearsSuffix

/-- Matcher for `YEARS_RANGE_PATTERN` anchored at the head of `cs`; returns the
captured `min` digits of the first match in priority order. -/
def matchRangeAt (cs : List Char) : Option (List Char) :=
  (digits12 cs).findSome? fun pr =>
    (run rangeSep pr.2).findSome? fun r2 =>
      (digits12 r2).findSome? fun pr2 =>
        ((run rangeEnd pr2.2).head?).map fun _ => pr.1

/-- Pattern `(?P<plus>\s*\+)?\s*(?:years?|yrs?)\s+of\s+experience` (tail of
`YEARS_PATTERN` after the digit group). -/
def yearsTail : Rx :=
  .seq (.opt (.seq wsS (chC '+')))
    (.seq wsS (.seq yearsSuffix
      (.seq wsP (.seq (strC ("of".toList)) (.seq wsP (strC ("experience".toList)))))))

/-- Matcher for `YEARS_PATTERN` anchored at the head of `cs`. -/
def matchYearsAt (cs : List Char) : Option (List Char) :=
  (digits12 cs).findSome? fun pr =>
    ((run yearsTail pr.2).head?).map fun _ => pr.1

/-- Pattern `(?:at\s+least\s+|minimum\s+of\s+)`. -/
def fbPre : Rx :=
  .alt (.seq (strC ("at".toList)) (.seq wsP (.seq (strC ("least".toList)) wsP)))
       (.seq (strC ("minimum".toList)) (.seq wsP (.seq (strC ("of".toList)) wsP)))

/-- Pattern `(?P<plus>\s*\+)?\s*(?:years?|yrs?)` (tail of the fallback pattern). -/
def fbTail : Rx := .seq (.opt (.seq wsS (chC '+'))) (.seq wsS yearsSuffix)

/-- Matcher for `YEARS_FALLBACK_PATTERN` anchored at the head of `cs`. -/
def matchFallbackAt (cs : List Char) : Option (List Char) :=
  (run (.opt fbPre) cs).findSome? fun r1 =>
    (digits12 r1).findSome? fun pr =>
      ((run fbTail pr.2).head?).map fun _ => pr.1

/-- Model of `re.search`: try the anchored matcher at each position, leftmost wins
(including the empty suffix at the end of the text). -/
def searchGo (m : List Char → Option (List Char)) : List Char → Option (List Char)
  | [] => m []
  | c :: rest => (m (c :: rest)) <|> searchGo m rest

/-- Model of `linkedin_scraper._extract_years`: the three patterns in fixed
priority, first hit wins; reports `"<digits> years"`. -/
def extract_years (text : List Char) : Option (List Char) :=
  match searchGo matchRangeAt text with
  | some d => some (d ++ " years".toList)
  | none =>
    match searchGo matchYearsAt text with
    | some d => some (d ++ " years".toList)
    | none => (searchGo matchFallbackAt text).map fun d => d ++ " years".toList

/-! ### Degree classification (`linkedin_scraper._extract_degree`)

`DEGREE_PATTERNS` (all with `re.IGNORECASE`):
  Bachelor: `\b(b\.?\s*sc|b\.?\s*s\.?|b\.?\s*a\.?|bachelor'?s?)\b`
  Master:   `\b(m\.?\s*sc|m\.?\s*s\.?|master'?s?)\b`
  PhD:      `\b(ph\.?\s*d\.?|doctorate|doctoral)\b`
The leading/trailing `\b` are zero-width word boundaries, handled outside
the `Rx` matcher by inspecting the characters adjacent to the match. -/

inductive Degree where
  | Bachelor
  | Master
  | PhD
deriving DecidableEq, Repr

/-- Rank table `order` with Bachelor 0, Master 1, PhD 2. -/
def rank : Degree → Nat
  | .Bachelor => 0
  | .Master => 1
  | .PhD => 2

/-- The label string the source stores for each degree. -/
def degreeLabel : Degree → List Char
  | .Bachelor => "Bachelor".toList
  | .Master => "Master".toList
  | .PhD => "PhD".toList

/-- ASCII apostrophe (appears in `bachelor'?s?` / `master'?s?`). -/
def aposC : Char := Char.ofNat 39

/-- Body of the Bachelor pattern (between the word boundaries). -/
def bachelorRx : Rx :=
  .alt (.seq (chC 'b') (.seq optDot (.seq wsS (.seq (chC 's') (chC 'c')))))
    (.alt (.seq (chC 'b') (.seq optDot (.seq wsS (.seq (chC 's') optDot))))
      (.alt (.seq (chC 'b') (.seq optDot (.seq wsS (.seq (chC 'a') optDot))))
        (.seq (strC ("bachelor".toList)) (.seq (.opt (.chr fun x => x == aposC)) (.opt (chC 's'))))))

/-- Body of the Master pattern. -/
def masterRx : Rx :=
  .alt (.seq (chC 'm') (.seq optDot (.seq wsS (.seq (chC 's') (chC 'c')))))
    (.alt (.seq (chC 'm') (.seq optDot (.seq wsS (.seq (chC 's') optDot))))
      (.seq (strC ("master".toList)) (.seq (.opt (.chr fun x => x == aposC)) (.opt (chC 's')))))

/-- Body of the PhD pattern. -/
def phdRx : Rx :=
  .alt (.seq (chC 'p') (.seq (chC 'h') (.seq optDot (.seq wsS (.seq (chC 'd') optDot)))))
    (.alt (strC ("doctorate".toList)) (strC ("doctoral".toList)))

/-- Regex `\w` (ASCII fragment): letters, digits, underscore. -/
def isWordChar (c : Char) : Bool := c.isAlphanum || c == '_'

def isWordOpt : Option Char → Bool
  | none => false
  | some c => isWordChar c

/-- A word boundary sits between two positions iff exactly one side holds a
word character (text edges count as non-word). -/
def boundaryB (a b : Option Char) : Bool := isWordOpt a != isWordOpt b

/-- The last character consumed by a match that left remainder `rem` of
`cs` (needed for the trailing `\b` and to continue scanning). -/
def lastConsumed (cs rem : List Char) : Option Char :=
  (cs.take (cs.length - rem.length)).getLast?

/-- Match a `\b`-delimited pattern body at the head of `cs`, where `prev`
is the character just before `cs` in the full text: the first candidate in
backtracking priority order whose end also lands on a word boundary. -/
def matchFamAt (r : Rx) (prev : Option Char) (cs : List Char) : Option (List Char) :=
  if boundaryB prev cs.head? then
    (run r cs).find? fun rem => boundaryB (lastConsumed cs rem) rem.head?
  else none

/-- Model of `re.finditer`: scan left to right, emit each non-overlapping match as a
(start, end) index pair, resuming at the end of each match.  The patterns
at hand always consume at least one character (`consumesPos`), so the scan
advances every step; the fuel argument only bounds the recursion and never
runs out when it starts at `cs.length` (see `findIterGo_fuel_irrelevant`). -/
def findIterGo (r : Rx) : Nat → Option Char → Nat → List Char → List (Nat × Nat)
  | 0, _, _, _ => []
  | _ + 1, _, _, [] => []
  | fuel + 1, prev, pos, c :: rest =>
    match matchFamAt r prev (c :: rest) with
    | some rem =>
      (pos, pos + ((c :: rest).length - rem.length)) ::
        findIterGo r fuel (lastConsumed (c :: rest) rem)
          (pos + ((c :: rest).length - rem.length)) rem
    | none => findIterGo r fuel (some c) (pos + 1) rest

/-- All matches of a `\b`-delimited pattern body in `s`. -/
def findIter (r : Rx) (s : List Char) : List (Nat × Nat) :=
  findIterGo r s.length none 0 s

/-- The `(label, match)` stream of the `for label, pattern in
DEGREE_PATTERNS: for found in pattern.finditer(text)` double loop. -/
def degreeMatches (text : List Char) : List (Degree × Nat × Nat) :=
  ((findIter bachelorRx text).map fun p => (Degree.Bachelor, p)) ++
    ((findIter masterRx text).map fun p => (Degree.Master, p)) ++
    ((findIter phdRx text).map fun p => (Degree.PhD, p))

/-- Context tier of one degree mention. -/
inductive Tier where
  | required
  | neutral
  | preferred
deriving DecidableEq, Repr

/-- Hint table `DEGREE_REQUIRED_HINTS`. -/
def requiredHints : List (List Char) :=
  ["require".toList, "required".toList, "must".toList, "minimum".toList,
    "at least".toList, "need".toList, "looking for".toList]

/-- Hint table `DEGREE_PREFERRED_HINTS`. -/
def preferredHints : List (List Char) :=
  ["prefer".toList, "preferred".toList, "advantage".toList,
    "nice to have".toList, "plus".toList, "bonus".toList]

/-- Python's `needle in hay` substring test. -/
def containsSub (needle hay : List Char) : Bool :=
  match hay with
  | [] => needle.isEmpty
  | _ :: t => needle.isPrefixOf hay || containsSub needle t

/-- Context window `lower[max(0, start - 50) : min(len(text), end + 50)]`
(`Nat` subtraction is already clamped at 0). -/
def windowOf (lower : List Char) (textLen s e : Nat) : List Char :=
  (lower.drop (s - 50)).take (min textLen (e + 50) - (s - 50))

/-- Lines 135-139: neutral unless a preferred hint occurs in the window,
and required (overriding preferred) if a required hint occurs. -/
def categorize (w : List Char) : Tier :=
  let cat := if preferredHints.any (fun h => containsSub h w) then Tier.preferred else Tier.neutral
  if requiredHints.any (fun h => containsSub h w) then Tier.required else cat

/-- The `(label, category)` list the resolution loop works on. -/
def matchTiers (text : List Char) : List (Degree × Tier) :=
  let lower := text.map Char.toLower
  (degreeMatches text).map fun m =>
    (m.1, categorize (windowOf lower text.length m.2.1 m.2.2))

/-- Model of `min(eligible, key=lambda lbl: order[lbl])`: first element of minimal
rank (Python's `min` keeps the earliest item on ties). -/
def minLabel : List Degree → Option Degree
  | [] => none
  | d :: ds => some (ds.foldl (fun a b => if rank b < rank a then b else a) d)

/-- One tier of the resolution loop: the labels of the matches classified
into that tier, reduced by `min`. -/
def pickTier (ms : List (Degree × Tier)) (t : Tier) : Option Degree :=
  minLabel ((ms.filter fun p => p.2 = t).map fun p => p.1)

/-- Model of `linkedin_scraper._extract_degree` given the matches: `None` when no
pattern matched, else the first tier (required, neutral, preferred) with a
match, reduced to the lowest-rank label. -/
def extract_degree (text : List Char) : Option Degree :=
  let ms := matchTiers text
  if ms = [] then none
  else
    match pickTier ms .required with
    | some d => some d
    | none =>
      match pickTier ms .neutral with
      | some d => some d
      | none => pickTier ms .preferred

/-- Restatement of the spec's resolution wording, for comparison with the
implementation: "consider tiers in strict precedence order required →
neutral → preferred; take the first tier that has at least one match;
among matches in that tier, select the degree with the lowest rank under
Bachelor(0) < Master(1) < PhD(2)". -/
def lowestRank (l : List Degree) : Option Degree :=
  if Degree.Bachelor ∈ l then some Degree.Bachelor
  else if Degree.Master ∈ l then some Degree.Master
  else if Degree.PhD ∈ l then some Degree.PhD
  else none

/-- Spec-worded resolution over classified matches. -/
def specResolve (ms : List (Degree × Tier)) : Option Degree :=
  match lowestRank ((ms.filter fun p => p.2 = Tier.required).map fun p => p.1) with
  | some d => some d
  | none =>
    match lowestRank ((ms.filter fun p => p.2 = Tier.neutral).map fun p => p.1) with
    | some d => some d
    | none => lowestRank ((ms.filter fun p => p.2 = Tier.preferred).map fun p => p.1)

/-! ### Enrichment (`linkedin_scraper._enrich_job`)

The detail-page HTTP fetch and the description-container lookup are
external: they are modelled by an oracle `detail : JobPosting → Option
(List Char)` returning the description text, or `none` when the fetch
fails or no description container is found (in both cases the source
returns with the job unchanged). -/

/-- Model of `_enrich_job`: jobs with an empty (raw) link are left untouched;
otherwise the extracted degree/years overwrite the fields only when the
extractors returned something. -/
def enrich_job (detail : JobPosting → Option (List Char)) (j : JobPosting) : JobPosting :=
  if j.job_link = [] then j
  else
    match detail j with
    | none => j
    | some text =>
      { j with
        degree := ((extract_degree text).map degreeLabel).getD j.degree,
        years_experience := (extract_years text).getD j.years_experience }

/-! ### Collector loop (`linkedin_scraper.collect_jobs`, `config`) -/

/-- Constant `config.MAX_JOBS`. -/
def MAX_JOBS : Int := 75

/-- Constant `config.RESULTS_PER_PAGE`. -/
def RESULTS_PER_PAGE : Nat := 25

/-- The pagination loop of `collect_jobs` (lines 205-217).  `fetch start`
models one `_request_html` + `_parse_cards` round trip: `none` is a
`requests.RequestException` (timeout / non-success status), `some page`
the parsed candidates of that page.  Returns the accumulated candidates
and the list of offsets actually fetched.  Every iteration that recurses
grows the accumulator by at least one and the loop only runs while
`len(collected) < limit`, so `limit.toNat + 1` fuel never runs out (see
`collectAux_fuel_irrelevant`). -/
def collectAux (fetch : Nat → Option (List JobPosting)) (limit : Int) :
    Nat → List JobPosting → Nat → List JobPosting × List Nat
  | 0, acc, _ => (acc, [])
  | fuel + 1, acc, start =>
    if (acc.length : Int) < limit then
      match fetch start with
      | none => (acc, [start])
      | some page =>
        if page = [] then (acc, [start])
        else
          ((collectAux fetch limit fuel (acc ++ page) (start + RESULTS_PER_PAGE)).1,
            start :: (collectAux fetch limit fuel (acc ++ page) (start + RESULTS_PER_PAGE)).2)
    else (acc, [])

/-- The full pagination phase starting from an empty accumulator at
offset 0. -/
def collectLoop (fetch : Nat → Option (List JobPosting)) (limit : Int) :
    List JobPosting × List Nat :=
  collectAux fetch limit (limit.toNat + 1) [] 0

/-- Model of `collect_jobs`: paginate, truncate to the first `limit` candidates
(`collected[:limit]`; the loop yields `[]` whenever `limit ≤ 0`, so the
`Nat` truncation agrees with the Python slice), then enrich each kept
candidate in order. -/
def collect_jobs (fetch : Nat → Option (List JobPosting))
    (detail : JobPosting → Option (List Char)) (limit : Int) : List JobPosting :=
  (((collectLoop fetch limit).1).take limit.toNat).map (enrich_job detail)

/-! ### Orchestrator (`collector.collect_and_persist`) -/

/-- Default handling `limit = limit or config.MAX_JOBS`: Python `or` replaces the falsy
values `None` and `0` by the default; every other integer (negative ones
included) passes through. -/
def effective_limit : Option Int → Int
  | none => MAX_JOBS
  | some v => if v = 0 then MAX_JOBS else v

/-- The store file on disk: `none` when the file does not exist. -/
def storeRows : Option (List StoredRow) → List StoredRow
  | none => []
  | some rs => rs

/-- Model of `collect_and_persist`: collect (which enriches), and only when the
collected list is non-empty hand it to `append_rows`.  Returns the new
store contents and the rows-written count. -/
def collect_and_persist (fetch : Nat → Option (List JobPosting))
    (detail : JobPosting → Option (List Char)) (ts : List Char)
    (fileState : Option (List StoredRow)) (limitArg : Option Int) :
    List StoredRow × Nat :=
  let jobs := collect_jobs fetch detail (effective_limit limitArg)
  if jobs = [] then (storeRows fileState, 0)
  else append_rows ts jobs (storeRows fileState)

/-! ### Event trace of one run (for the write-discipline claims)

`Ev.enrichItem j` is one `_enrich_job(job)` call; the other constructors
are the three operations that touch the store file: `ensure_file` creating
a missing file with its header, the `"a"`-mode batch append in
`append_rows`, and the `"w"`-mode full rewrite in `deduplicate_csv`
(performed only when it removed rows). -/
inductive Ev where
  | enrichItem (j : JobPosting)
  | createFile
  | appendWrite
  | rewriteFile
deriving DecidableEq, Repr

/-- Store-file mutations. -/
def isWrite : Ev → Bool
  | .enrichItem _ => false
  | _ => true

/-- The file events of one `append_rows` call: `ensure_file` first (a
creation only when the file is missing), then — unless the accepted batch
is empty, in which case the function returns before writing — one append,
followed by a rewrite exactly when the post-append `deduplicate_csv`
removed rows. -/
def append_rows_events (ts : List Char) (jobs : List JobPosting)
    (fileState : Option (List StoredRow)) : List Ev :=
  let store := storeRows fileState
  let accepted := acceptJobs ts (loadLinks store) jobs
  (if fileState = none then [Ev.createFile] else []) ++
    (if accepted = [] then []
     else
       Ev.appendWrite ::
         (if (deduplicate_csv (store ++ accepted)).2 = 0 then [] else [Ev.rewriteFile]))

/-- The event trace of one full `collect_and_persist` run: all enrichment
calls (on the truncated candidate list, in order), then the store-file
events — none at all when the collected list is empty. -/
def run_events (fetch : Nat → Option (List JobPosting))
    (detail : JobPosting → Option (List Char)) (ts : List Char)
    (fileState : Option (List StoredRow)) (limitArg : Option Int) : List Ev :=
  let limit := effective_limit limitArg
  let kept := ((collectLoop fetch limit).1).take limit.toNat
  let jobs := kept.map (enrich_job detail)
  kept.map Ev.enrichItem ++
    (if jobs = [] then [] else append_rows_events ts jobs fileState)

/-- Shared sample row for concrete witnesses. -/
def sampleRow (link : List Char) : StoredRow :=
  ⟨"t".toList, "j".toList, "c".toList, "l".toList, "d".toList, "y".toList, link⟩

/-- Shared sample job for concrete witnesses. -/
def sampleJob (link : List Char) : JobPosting :=
  ⟨"j".toList, "c".toList, "l".toList, "Not specified".toList, "Not specified".toList, link⟩

/-- Concrete description text holding a required-context Bachelor mention
and a preferred-context PhD mention, far enough apart that their
50-character context windows do not overlap, and no other degree-pattern
match. -/
def degreeSampleText : List Char :=
  ("bachelor degree is required for this position. z z z z z z z z z z z z z " ++
    "z z z z z z z z z z z z a phd would be preferred").toList

set_option maxRecDepth 200000

/-! ## Lemmas about `deduplicate_csv` -/

theorem dedupAux_sublist (seen : List (List Char)) (rows : List StoredRow) :
    (dedupAux seen rows).1.Sublist rows := by
  induction rows generalizing seen with
  | nil => simp [dedupAux]
  | cons r rs ih =>
    simp only [dedupAux]
    split
    · exact (ih seen).trans (List.sublist_cons_self r rs)
    · exact (ih _).cons₂ r

theorem dedupAux_count (seen : List (List Char)) (rows : List StoredRow) :
    (dedupAux seen rows).2 + (dedupAux seen rows).1.length = rows.length := by
  induction rows generalizing seen with
  | nil => simp [dedupAux]
  | cons r rs ih =>
    simp only [dedupAux]
    split
    · have := ih seen
      simp only [List.length_cons]
      omega
    · have := ih (if identity r ≠ [] then identity r :: seen else seen)
      simp only [List.length_cons]
      omega

theorem dedupAux_filter_empty (seen : List (List Char)) (rows : List StoredRow) :
    (dedupAux seen rows).1.filter (fun r => identity r = []) =
      rows.filter (fun r => identity r = []) := by
  induction rows generalizing seen with
  | nil => simp [dedupAux]
  | cons r rs ih =>
    simp only [dedupAux]
    by_cases h : identity r ≠ [] ∧ identity r ∈ seen
    · rw [if_pos h]
      dsimp only
      rw [List.filter_cons_of_neg (by simpa using h.1)]
      exact ih seen
    · rw [if_neg h]
      dsimp only
      by_cases he : identity r = []
      · rw [List.filter_cons_of_pos (by simpa using he),
          List.filter_cons_of_pos (by simpa using he), ih]
      · rw [List.filter_cons_of_neg (by simpa using he),
          List.filter_cons_of_neg (by simpa using he), ih]

theorem dedupAux_filter_mem (seen : List (List Char)) (rows : List StoredRow)
    (l : List Char) (hl : l ≠ []) (hmem : l ∈ seen) :
    (dedupAux seen rows).1.filter (fun r => identity r = l) = [] := by
  induction rows generalizing seen with
  | nil => simp [dedupAux]
  | cons r rs ih =>
    simp only [dedupAux]
    by_cases h : identity r ≠ [] ∧ identity r ∈ seen
    · rw [if_pos h]
      dsimp only
      exact ih seen hmem
    · rw [if_neg h]
      dsimp only
      have hne : identity r ≠ l := fun he => h ⟨he ▸ hl, he ▸ hmem⟩
      rw [List.filter_cons_of_neg (by simpa using hne)]
      by_cases hz : identity r ≠ []
      · rw [if_pos hz]
        exact ih _ (List.mem_cons_of_mem _ hmem)
      · rw [if_neg hz]
        exact ih _ hmem

theorem dedupAux_filter_first (seen : List (List Char)) (rows : List StoredRow)
    (l : List Char) (hl : l ≠ []) (hmem : l ∉ seen) :
    (dedupAux seen rows).1.filter (fun r => identity r = l) =
      (rows.filter (fun r => identity r = l)).take 1 := by
  induction rows generalizing seen with
  | nil => simp [dedupAux]
  | cons r rs ih =>
    simp only [dedupAux]
    by_cases he : identity r = l
    · have hskip : ¬(identity r ≠ [] ∧ identity r ∈ seen) := by
        rw [he]; exact fun hc => hmem hc.2
      rw [if_neg hskip]
      dsimp only
      rw [List.filter_cons_of_pos (by simpa using he),
        List.filter_cons_of_pos (by simpa using he)]
      have h1 : (if identity r ≠ [] then identity r :: seen else seen) = l :: seen := by
        rw [he, if_pos hl]
      rw [h1, dedupAux_filter_mem (l :: seen) rs l hl (List.mem_cons_self _ _)]
      simp
    · by_cases h : identity r ≠ [] ∧ identity r ∈ seen
      · rw [if_pos h]
        dsimp only
        rw [List.filter_cons_of_neg (by simpa using he)]
        exact ih seen hmem
      · rw [if_neg h]
        dsimp only
        rw [List.filter_cons_of_neg (by simpa using he),
          List.filter_cons_of_neg (by simpa using he)]
        by_cases hz : identity r ≠ []
        · rw [if_pos hz]
          refine ih _ ?_
          simp only [List.mem_cons, not_or]
          exact ⟨fun hx => he hx.symm, hmem⟩
        · rw [if_neg hz]
          exact ih _ hmem

theorem loadLinks_append (a b : List StoredRow) :
    loadLinks (a ++ b) = loadLinks a ++ loadLinks b := by
  simp [loadLinks, List.filterMap_append]

theorem loadLinks_cons (r : StoredRow) (rs : List StoredRow) :
    loadLinks (r :: rs) =
      if identity r = [] then loadLinks rs else identity r :: loadLinks rs := by
  by_cases he : identity r = []
  · simp [loadLinks, List.filterMap_cons, he]
  · simp [loadLinks, List.filterMap_cons, he]

/-- If the non-empty identities of `rows` are duplicate-free and disjoint
from `seen`, the dedup sweep keeps everything and removes nothing. -/
theorem dedupAux_of_nodup (seen : List (List Char)) (rows : List StoredRow)
    (hdis : ∀ l ∈ loadLinks rows, l ∉ seen) (hnd : (loadLinks rows).Nodup) :
    dedupAux seen rows = (rows, 0) := by
  induction rows generalizing seen with
  | nil => simp [dedupAux]
  | cons r rs ih =>
    simp only [dedupAux]
    by_cases he : identity r = []
    · rw [if_neg (by simp [he])]
      rw [loadLinks_cons, if_pos he] at hdis hnd
      rw [if_neg (by simp [he]), ih seen hdis hnd]
    · rw [loadLinks_cons, if_neg he] at hdis hnd
      have hns : identity r ∉ seen := hdis _ (List.mem_cons_self _ _)
      rw [if_neg (by simp [hns]), if_pos he]
      rw [ih (identity r :: seen) ?_ (List.Nodup.of_cons hnd)]
      intro l hlet
      simp only [List.mem_cons]
      push_neg
      exact ⟨fun hx => (List.Nodup.not_mem hnd) (hx ▸ hlet),
        hdis l (List.mem_cons_of_mem _ hlet)⟩

/-- Every identity present before the sweep is still present afterwards
(unless it was already marked as seen). -/
theorem dedupAux_mem_links (seen : List (List Char)) (rows : List StoredRow)
    (l : List Char) (h : l ∈ loadLinks rows) :
    l ∈ seen ∨ l ∈ loadLinks (dedupAux seen rows).1 := by
  induction rows generalizing seen with
  | nil => simp [loadLinks] at h
  | cons r rs ih =>
    simp only [dedupAux]
    by_cases he : identity r = []
    · have hseen : (if identity r ≠ [] then identity r :: seen else seen) = seen := by
        simp [he]
      rw [loadLinks_cons, if_pos he] at h
      rw [if_neg (by simp [he]), hseen]
      dsimp only
      rcases ih seen h with hx | hx
      · exact Or.inl hx
      · right
        rw [loadLinks_cons, if_pos he]
        exact hx
    · have hseen : (if identity r ≠ [] then identity r :: seen else seen) =
          identity r :: seen := by simp [he]
      rw [loadLinks_cons, if_neg he] at h
      by_cases hs : identity r ∈ seen
      · rw [if_pos ⟨he, hs⟩]
        dsimp only
        rcases List.mem_cons.mp h with h | h
        · exact Or.inl (h ▸ hs)
        · exact ih seen h
      · rw [if_neg (fun hc => hs hc.2), hseen]
        dsimp only
        rcases List.mem_cons.mp h with h | h
        · right
          rw [loadLinks_cons, if_neg he, h]
          exact List.mem_cons_self _ _
        · rcases ih (identity r :: seen) h with hx | hx
          · rcases List.mem_cons.mp hx with hx | hx
            · right
              rw [loadLinks_cons, if_neg he, hx]
              exact List.mem_cons_self _ _
            · exact Or.inl hx
          · right
            rw [loadLinks_cons, if_neg he]
            exact List.mem_cons_of_mem _ hx

/-! ## Lemmas about `append_rows` -/

theorem identity_mkRow (ts : List Char) (j : JobPosting) :
    identity (mkRow ts j) = pstrip j.job_link := rfl

/-- The batch accepted by `append_rows` holds pairwise distinct non-empty
identities, all of them fresh with respect to the incoming link set. -/
theorem acceptJobs_nodup_fresh (ts : List Char) (jobs : List JobPosting)
    (links : List (List Char)) :
    (loadLinks (acceptJobs ts links jobs)).Nodup ∧
      ∀ l ∈ loadLinks (acceptJobs ts links jobs), l ∉ links := by
  induction jobs generalizing links with
  | nil => simp [acceptJobs, loadLinks]
  | cons j js ih =>
    simp only [acceptJobs]
    by_cases h : pstrip j.job_link ≠ [] ∧ pstrip j.job_link ∈ links
    · rw [if_pos h]
      exact ih links
    · rw [if_neg h]
      by_cases hz : pstrip j.job_link = []
      · have hseen : (if pstrip j.job_link ≠ [] then pstrip j.job_link :: links else links) =
            links := by simp [hz]
        rw [hseen, loadLinks_cons]
        rw [identity_mkRow, if_pos hz]
        exact ih links
      · have hseen : (if pstrip j.job_link ≠ [] then pstrip j.job_link :: links else links) =
            pstrip j.job_link :: links := by simp [hz]
        have hnin : pstrip j.job_link ∉ links := fun hc => h ⟨hz, hc⟩
        rw [hseen, loadLinks_cons, identity_mkRow, if_neg hz]
        rcases ih (pstrip j.job_link :: links) with ⟨hnd, hfresh⟩
        refine ⟨List.Nodup.cons ?_ hnd, ?_⟩
        · intro hc
          exact hfresh _ hc (List.mem_cons_self _ _)
        · intro l hlmem
          rcases List.mem_cons.mp hlmem with hx | hx
          · exact hx ▸ hnin
          · exact fun hc => hfresh l hx (List.mem_cons_of_mem _ hc)

/-- Every job whose stripped link is non-empty is covered after the batch:
its link was either already known or belongs to an accepted row. -/
theorem acceptJobs_covers (ts : List Char) (jobs : List JobPosting)
    (links : List (List Char)) (j : JobPosting) (hj : j ∈ jobs)
    (hz : pstrip j.job_link ≠ []) :
    pstrip j.job_link ∈ links ∨
      pstrip j.job_link ∈ loadLinks (acceptJobs ts links jobs) := by
  induction jobs generalizing links with
  | nil => cases hj
  | cons j0 js ih =>
    simp only [acceptJobs]
    by_cases h : pstrip j0.job_link ≠ [] ∧ pstrip j0.job_link ∈ links
    · rw [if_pos h]
      rcases List.mem_cons.mp hj with hj | hj
      · exact Or.inl (hj ▸ h.2)
      · exact ih links hj
    · rw [if_neg h]
      rcases List.mem_cons.mp hj with hj | hj
      · subst hj
        right
        rw [loadLinks_cons, identity_mkRow, if_neg hz]
        exact List.mem_cons_self _ _
      · by_cases hz0 : pstrip j0.job_link = []
        · have hseen : (if pstrip j0.job_link ≠ [] then pstrip j0.job_link :: links
              else links) = links := by simp [hz0]
          rw [hseen, loadLinks_cons, identity_mkRow, if_pos hz0]
          exact ih links hj
        · have hseen : (if pstrip j0.job_link ≠ [] then pstrip j0.job_link :: links
              else links) = pstrip j0.job_link :: links := by simp [hz0]
          rw [hseen, loadLinks_cons, identity_mkRow, if_neg hz0]
          rcases ih (pstrip j0.job_link :: links) hj with hx | hx
          · rcases List.mem_cons.mp hx with hx | hx
            · exact Or.inr (hx ▸ List.mem_cons_self _ _)
            · exact Or.inl hx
          · exact Or.inr (List.mem_cons_of_mem _ hx)

/-- When every incoming job carries a non-empty link that is already
known, the whole batch is rejected. -/
theorem acceptJobs_all_skip (ts : List Char) (jobs : List JobPosting)
    (links : List (List Char))
    (h : ∀ j ∈ jobs, pstrip j.job_link ≠ [] ∧ pstrip j.job_link ∈ links) :
    acceptJobs ts links jobs = [] := by
  induction jobs with
  | nil => rfl
  | cons j js ih =>
    simp only [acceptJobs]
    rw [if_pos (h j (List.mem_cons_self _ _))]
    exact ih fun j0 hj0 => h j0 (List.mem_cons_of_mem _ hj0)

/-- On a store whose non-empty identities are duplicate-free, `append_rows`
plainly appends the accepted batch (the post-append compaction finds
nothing to remove). -/
theorem append_rows_eq_of_nodup (ts : List Char) (jobs : List JobPosting)
    (store : List StoredRow) (hnd : (loadLinks store).Nodup) :
    (append_rows ts jobs store).1 = store ++ acceptJobs ts (loadLinks store) jobs ∧
      (deduplicate_csv (store ++ acceptJobs ts (loadLinks store) jobs)).2 = 0 := by
  have hcomb : (loadLinks (store ++ acceptJobs ts (loadLinks store) jobs)).Nodup := by
    rw [loadLinks_append]
    rcases acceptJobs_nodup_fresh ts jobs (loadLinks store) with ⟨hnd2, hfresh⟩
    exact List.Nodup.append hnd hnd2 fun l hl1 hl2 => hfresh l hl2 hl1
  have hded := dedupAux_of_nodup [] (store ++ acceptJobs ts (loadLinks store) jobs)
    (by simp) hcomb
  constructor
  · simp only [append_rows]
    by_cases hacc : acceptJobs ts (loadLinks store) jobs = []
    · rw [if_pos hacc]
      simp [hacc]
    · rw [if_neg hacc]
      dsimp only
      rw [if_pos (by rw [deduplicate_csv, hded])]
  · rw [deduplicate_csv, hded]

/-- Appending keeps the store invariant. -/
theorem append_rows_nodup (ts : List Char) (jobs : List JobPosting)
    (store : List StoredRow) (hnd : (loadLinks store).Nodup) :
    (loadLinks (append_rows ts jobs store).1).Nodup := by
  rw [(append_rows_eq_of_nodup ts jobs store hnd).1, loadLinks_append]
  rcases acceptJobs_nodup_fresh ts jobs (loadLinks store) with ⟨hnd2, hfresh⟩
  exact List.Nodup.append hnd hnd2 fun l hl1 hl2 => hfresh l hl2 hl1

/-! ## C1: dedup invariant across append sequences -/

/-- C1. For every sequence of append-batch operations on the dedup store
(started from the freshly created empty store), the resulting store never
contains two stored rows whose non-empty identity (the whitespace-stripped
stored job link) is equal: the ordered list of non-empty identities is
duplicate-free (rows with an empty link contribute nothing to that list
and may repeat).  Moreover one append-batch step preserves that invariant
from any store satisfying it. -/
theorem C1_dedup_invariant :
    (∀ batches : List (List Char × List JobPosting),
      (loadLinks (batches.foldl (fun st p => (append_rows p.1 p.2 st).1) [])).Nodup) ∧
    ∀ (ts : List Char) (jobs : List JobPosting) (store : List StoredRow),
      (loadLinks store).Nodup → (loadLinks (append_rows ts jobs store).1).Nodup := by
  constructor
  · intro batches
    have : ∀ (st : List StoredRow), (loadLinks st).Nodup →
        (loadLinks (batches.foldl (fun st p => (append_rows p.1 p.2 st).1) st)).Nodup := by
      induction batches with
      | nil => exact fun st h => h
      | cons b bs ih =>
        intro st h
        exact ih _ (append_rows_nodup b.1 b.2 st h)
    exact this [] (by simp [loadLinks])
  · exact append_rows_nodup

/-- Witness for C1: the invariant-preservation half applied to a concrete
store and batch (two jobs sharing one link; one row survives). -/
theorem C1_dedup_invariant_witness :
    (loadLinks (append_rows ("t2".toList)
      [sampleJob ("x".toList), sampleJob ("x".toList), sampleJob ("y".toList)]
      [sampleRow ("y".toList)]).1).Nodup :=
  C1_dedup_invariant.2 ("t2".toList)
    [sampleJob ("x".toList), sampleJob ("x".toList), sampleJob ("y".toList)]
    [sampleRow ("y".toList)] (by decide)

/-! ## C2: compaction correctness -/

/-- C2. Compaction (`deduplicate_csv`) keeps a subsequence of the rows in
their original order; it returns exactly the number of rows removed; rows
with empty identity all survive; and for every non-empty identity the
surviving rows carrying it are exactly the first such row of the input:
later rows with an already-seen identity are removed. -/
theorem C2_compaction (rows : List StoredRow) :
    (deduplicate_csv rows).1.Sublist rows ∧
    (deduplicate_csv rows).2 = rows.length - (deduplicate_csv rows).1.length ∧
    (deduplicate_csv rows).1.filter (fun r => identity r = []) =
      rows.filter (fun r => identity r = []) ∧
    ∀ l : List Char, l ≠ [] →
      (deduplicate_csv rows).1.filter (fun r => identity r = l) =
        (rows.filter (fun r => identity r = l)).take 1 := by
  refine ⟨dedupAux_sublist [] rows, ?_, dedupAux_filter_empty [] rows, ?_⟩
  · have := dedupAux_count [] rows
    rw [deduplicate_csv]
    omega
  · intro l hl
    exact dedupAux_filter_first [] rows l hl (by simp)

/-- Witness for C2: the first-occurrence clause applied to a concrete
store holding a duplicated identity. -/
theorem C2_compaction_witness :
    (deduplicate_csv [sampleRow ("x".toList), sampleRow ("y".toList),
        sampleRow ("x".toList)]).1.filter (fun r => identity r = "x".toList) =
      ([sampleRow ("x".toList), sampleRow ("y".toList),
        sampleRow ("x".toList)].filter (fun r => identity r = "x".toList)).take 1 :=
  (C2_compaction [sampleRow ("x".toList), sampleRow ("y".toList),
    sampleRow ("x".toList)]).2.2.2 ("x".toList) (by decide)

/-! ## The pagination loop -/

/-- Sanity check for the fuel of `collectAux`: any fuel large enough that
the loop condition must fail before it runs out gives the same result, so
the canonical `limit.toNat + 1` of `collectLoop` (each iteration grows the
accumulator by at least one and the loop only runs while
`len(collected) < limit`) behaves exactly like the unbounded Python loop. -/
theorem collectAux_fuel_irrelevant (fetch : Nat → Option (List JobPosting)) (limit : Int) :
    ∀ (f1 f2 : Nat) (acc : List JobPosting) (start : Nat),
      limit.toNat < acc.length + f1 → limit.toNat < acc.length + f2 →
      collectAux fetch limit f1 acc start = collectAux fetch limit f2 acc start := by
  intro f1
  induction f1 with
  | zero =>
    intro f2 acc start h1 h2
    have hc : ¬((acc.length : Int) < limit) := by omega
    cases f2 with
    | zero => rfl
    | succ m => simp [collectAux, hc]
  | succ n ih =>
    intro f2 acc start h1 h2
    cases f2 with
    | zero =>
      have hc : ¬((acc.length : Int) < limit) := by omega
      simp [collectAux, hc]
    | succ m =>
      simp only [collectAux]
      by_cases hc : (acc.length : Int) < limit
      · rw [if_pos hc, if_pos hc]
        cases hf : fetch start with
        | none => rfl
        | some page =>
          dsimp only
          by_cases hp : page = []
          · rw [if_pos hp, if_pos hp]
          · rw [if_neg hp, if_neg hp]
            have hlen : 0 < page.length := List.length_pos.mpr hp
            rw [ih m (acc ++ page) (start + RESULTS_PER_PAGE)
              (by simp only [List.length_append]; omega)
              (by simp only [List.length_append]; omega)]
      · rw [if_neg hc, if_neg hc]

/-- Enrichment events are not store writes. -/
theorem enrich_events_no_writes (ks : List JobPosting) :
    (ks.map Ev.enrichItem).filter isWrite = [] := by
  induction ks with
  | nil => rfl
  | cons k t ih =>
    rw [List.map_cons, List.filter_cons_of_neg (by simp [isWrite])]
    exact ih

/-- Every event of `append_rows_events` is a store write. -/
theorem append_rows_events_writes (ts : List Char) (jobs : List JobPosting)
    (fileState : Option (List StoredRow)) :
    (append_rows_events ts jobs fileState).all isWrite = true := by
  rw [append_rows_events]
  split_ifs <;> rfl

/-! ## C7: pagination stops on an empty page -/

/-- C7. If a fetched page parses to zero candidates, the loop stops even
though the accumulated count is below the limit: it returns the candidates
accumulated so far having fetched no offset beyond the current one; in
particular a first empty page ends the whole pagination phase at offset 0. -/
theorem C7_empty_page_halts :
    (∀ (fetch : Nat → Option (List JobPosting)) (limit : Int) (fuel : Nat)
        (acc : List JobPosting) (start : Nat),
      (acc.length : Int) < limit → fetch start = some [] →
      collectAux fetch limit (fuel + 1) acc start = (acc, [start])) ∧
    ∀ (fetch : Nat → Option (List JobPosting)) (limit : Int),
      0 < limit → fetch 0 = some [] → collectLoop fetch limit = ([], [0]) := by
  have key : ∀ (fetch : Nat → Option (List JobPosting)) (limit : Int) (fuel : Nat)
      (acc : List JobPosting) (start : Nat),
      (acc.length : Int) < limit → fetch start = some [] →
      collectAux fetch limit (fuel + 1) acc start = (acc, [start]) := by
    intro fetch limit fuel acc start h1 h2
    simp [collectAux, h1, h2]
  exact ⟨key, fun fetch limit hl hf =>
    key fetch limit limit.toNat [] 0 (by simpa using hl) hf⟩

/-- Witness for C7: an upstream whose first page is empty under limit 5. -/
theorem C7_empty_page_halts_witness :
    collectLoop (fun _ => some ([] : List JobPosting)) 5 = ([], [0]) :=
  C7_empty_page_halts.2 (fun _ => some []) 5 (by norm_num) rfl

/-! ## C9: a fetch error stops pagination but not the run -/

/-- C9. A failed page fetch (modelled as `none`) stops pagination and
preserves the candidates accumulated so far (only the failing offset was
attempted); at the run level, when the first page succeeds and the second
fetch fails, the first page's candidates still go through enrichment and
are handed to the store. -/
theorem C9_fetch_error_preserved :
    (∀ (fetch : Nat → Option (List JobPosting)) (limit : Int) (fuel : Nat)
        (acc : List JobPosting) (start : Nat),
      (acc.length : Int) < limit → fetch start = none →
      collectAux fetch limit (fuel + 1) acc start = (acc, [start])) ∧
    ∀ (fetch : Nat → Option (List JobPosting)) (detail : JobPosting → Option (List Char))
      (ts : List Char) (fileState : Option (List StoredRow)) (limitArg : Option Int)
      (p : List JobPosting),
      fetch 0 = some p → p ≠ [] → fetch RESULTS_PER_PAGE = none →
      (p.length : Int) < effective_limit limitArg →
      collect_jobs fetch detail (effective_limit limitArg) = p.map (enrich_job detail) ∧
      collect_and_persist fetch detail ts fileState limitArg =
        append_rows ts (p.map (enrich_job detail)) (storeRows fileState) := by
  have key : ∀ (fetch : Nat → Option (List JobPosting)) (limit : Int) (fuel : Nat)
      (acc : List JobPosting) (start : Nat),
      (acc.length : Int) < limit → fetch start = none →
      collectAux fetch limit (fuel + 1) acc start = (acc, [start]) := by
    intro fetch limit fuel acc start h1 h2
    simp [collectAux, h1, h2]
  refine ⟨key, ?_⟩
  intro fetch detail ts fileState limitArg p h0 hp h25 hlim
  have hp1 : 0 < p.length := List.length_pos.mpr hp
  have hl0 : (0 : Int) < effective_limit limitArg := by omega
  obtain ⟨m, hm⟩ : ∃ m, (effective_limit limitArg).toNat = m + 2 :=
    ⟨(effective_limit limitArg).toNat - 2, by omega⟩
  have hloop : collectLoop fetch (effective_limit limitArg) = (p, [0, RESULTS_PER_PAGE]) := by
    rw [collectLoop, hm]
    rw [collectAux]
    rw [if_pos (by exact_mod_cast hl0), h0]
    dsimp only
    rw [if_neg hp]
    simp only [List.nil_append, Nat.zero_add]
    rw [key fetch (effective_limit limitArg) (m + 1) p RESULTS_PER_PAGE hlim h25]
  have hjobs : collect_jobs fetch detail (effective_limit limitArg) =
      p.map (enrich_job detail) := by
    rw [collect_jobs, hloop]
    dsimp only
    rw [List.take_of_length_le (by omega)]
  have hne : collect_jobs fetch detail (effective_limit limitArg) ≠ [] := by
    rw [hjobs]
    simp [hp]
  refine ⟨hjobs, ?_⟩
  simp only [collect_and_persist]
  rw [if_neg hne, hjobs]

/-- Witness for C9: one two-candidate first page, then a failing fetch,
under an effective limit of 75 (absent override). -/
theorem C9_fetch_error_preserved_witness :
    collect_jobs
        (fun start => if start = 0 then some [sampleJob ("a".toList), sampleJob ("b".toList)]
          else none)
        (fun _ => none) (effective_limit none) =
      [sampleJob ("a".toList), sampleJob ("b".toList)].map (enrich_job (fun _ => none)) :=
  (C9_fetch_error_preserved.2
    (fun start => if start = 0 then some [sampleJob ("a".toList), sampleJob ("b".toList)]
      else none)
    (fun _ => none) ("t".toList) (some []) none
    [sampleJob ("a".toList), sampleJob ("b".toList)]
    rfl (by decide) rfl (by decide)).1

/-! ## C8: truncation to the first `limit` candidates -/

/-- C8. When pagination accumulated at least `limit` candidates, exactly
the first `limit` of them (in fetch order) are kept: the kept prefix has
length `limit`, the enrichment phase processes exactly that prefix in
order (the run's enrichment events are its elements, everything after them
being store writes), and it is that enriched prefix — nothing more — that
is handed to the store. -/
theorem C8_truncation (fetch : Nat → Option (List JobPosting))
    (detail : JobPosting → Option (List Char)) (ts : List Char)
    (fileState : Option (List StoredRow)) (limitArg : Option Int)
    (h : (effective_limit limitArg).toNat ≤
      (collectLoop fetch (effective_limit limitArg)).1.length) :
    ((collectLoop fetch (effective_limit limitArg)).1.take
        (effective_limit limitArg).toNat).length = (effective_limit limitArg).toNat ∧
    collect_jobs fetch detail (effective_limit limitArg) =
      ((collectLoop fetch (effective_limit limitArg)).1.take
        (effective_limit limitArg).toNat).map (enrich_job detail) ∧
    (∃ tail, run_events fetch detail ts fileState limitArg =
        ((collectLoop fetch (effective_limit limitArg)).1.take
          (effective_limit limitArg).toNat).map Ev.enrichItem ++ tail ∧
        tail.all isWrite = true) ∧
    (collect_jobs fetch detail (effective_limit limitArg) ≠ [] →
      collect_and_persist fetch detail ts fileState limitArg =
        append_rows ts (collect_jobs fetch detail (effective_limit limitArg))
          (storeRows fileState)) := by
  refine ⟨?_, rfl, ?_, ?_⟩
  · rw [List.length_take]
    omega
  · refine ⟨if ((collectLoop fetch (effective_limit limitArg)).1.take
        (effective_limit limitArg).toNat).map (enrich_job detail) = [] then []
      else append_rows_events ts
        (((collectLoop fetch (effective_limit limitArg)).1.take
          (effective_limit limitArg).toNat).map (enrich_job detail)) fileState, rfl, ?_⟩
    split
    · rfl
    · exact append_rows_events_writes ts _ fileState
  · intro hne
    simp only [collect_and_persist]
    rw [if_neg hne]

/-- Witness for C8: a three-candidate first page under override limit 2
keeps exactly the first two candidates. -/
theorem C8_truncation_witness :
    collect_jobs (fun _ => some [sampleJob ("a".toList), sampleJob ("b".toList),
        sampleJob ("c".toList)]) (fun _ => none) (effective_limit (some 2)) =
      ([sampleJob ("a".toList), sampleJob ("b".toList)]).map (enrich_job (fun _ => none)) := by
  have h := (C8_truncation (fun _ => some [sampleJob ("a".toList), sampleJob ("b".toList),
    sampleJob ("c".toList)]) (fun _ => none) ("t".toList) (some []) (some 2)
    (by decide)).2.1
  rw [h]
  rfl

/-! ## C10: the limit override at the public entry point -/

/-- Counterexample for C10 as stated: the effective limit is not always
positive, and `limit = 0` is not the only way to ask for nothing — a
negative override such as `-1` passes through Python's `limit or
config.MAX_JOBS` untouched (only `None` and `0` are falsy), yielding a
non-positive effective limit and a run that collects zero candidates even
though the upstream has them. -/
theorem C10_limit_cex :
    effective_limit (some (-1)) = -1 ∧
      ¬(0 < effective_limit (some (-1))) ∧
      collect_jobs (fun _ => some [sampleJob ("x".toList)]) (fun _ => none)
        (effective_limit (some (-1))) = [] := by
  refine ⟨rfl, by decide, ?_⟩
  rfl

/-- C10 (amended): an override of 0, like an absent override, is replaced
by the configured default `MAX_JOBS = 75`, so the effective limit is
positive for every non-negative override — but a negative override passes
through unchanged. -/
theorem C10_limit_default :
    effective_limit none = 75 ∧ effective_limit (some 0) = 75 ∧
      ∀ v : Int, 0 ≤ v → 0 < effective_limit (some v) := by
  refine ⟨rfl, rfl, ?_⟩
  intro v hv
  simp only [effective_limit, MAX_JOBS]
  split <;> omega

/-- Witness for C10: a positive override keeps the limit positive. -/
theorem C10_limit_default_witness : 0 < effective_limit (some 5) :=
  C10_limit_default.2.2 5 (by norm_num)

/-! ## C3: write discipline of one run -/

theorem append_rows_events_len2 (ts : List Char) (jobs : List JobPosting)
    (fileState : Option (List StoredRow)) :
    (append_rows_events ts jobs fileState).length ≤ 2 := by
  cases fileState with
  | some st =>
    simp only [append_rows_events, storeRows]
    have hn : (some st : Option (List StoredRow)) ≠ none := by simp
    rw [if_neg hn]
    by_cases hacc : acceptJobs ts (loadLinks st) jobs = []
    · rw [if_pos hacc]
      simp
    · rw [if_neg hacc]
      by_cases hrem : (deduplicate_csv (st ++ acceptJobs ts (loadLinks st) jobs)).2 = 0
      · rw [if_pos hrem]
        simp
      · rw [if_neg hrem]
        simp
  | none =>
    have h0 := (append_rows_eq_of_nodup ts jobs [] (by simp [loadLinks])).2
    simp only [append_rows_events, storeRows]
    rw [if_pos trivial]
    by_cases hacc : acceptJobs ts (loadLinks []) jobs = []
    · rw [if_pos hacc]
      simp
    · rw [if_neg hacc, if_pos h0]
      simp

theorem append_rows_events_len1 (ts : List Char) (jobs : List JobPosting)
    (st : List StoredRow) (hnd : (loadLinks st).Nodup) :
    (append_rows_events ts jobs (some st)).length ≤ 1 := by
  have h0 := (append_rows_eq_of_nodup ts jobs st hnd).2
  simp only [append_rows_events, storeRows]
  have hn : (some st : Option (List StoredRow)) ≠ none := by simp
  rw [if_neg hn]
  by_cases hacc : acceptJobs ts (loadLinks st) jobs = []
  · rw [if_pos hacc]
    simp
  · rw [if_neg hacc, if_pos h0]
    simp

/-- Counterexample to C3 as stated: a concrete run against an existing
store whose contents hold a duplicated identity mutates the store file
twice — the batch append and then the compaction rewrite that
`append_rows` unconditionally triggers (which removes the historical
duplicate). -/
theorem C3_single_write_cex :
    ((run_events (fun _ => some [sampleJob ("z".toList)]) (fun _ => none) ("t".toList)
        (some [sampleRow ("x".toList), sampleRow ("x".toList)]) (some 1)).filter
      isWrite).length = 2 := by
  decide

/-- C3 (amended).  Every run mutates the store file at most twice (the
batch append, plus a compaction rewrite only possible when the
pre-existing contents held a duplicated identity); when the store file
exists and its contents satisfy the dedup invariant the run mutates it at
most once; every store mutation happens after the whole enrichment phase
(the trace is enrichment events followed by only-write events); and a run
that ends pagination with no candidates never touches the store. -/
theorem C3_write_discipline (fetch : Nat → Option (List JobPosting))
    (detail : JobPosting → Option (List Char)) (ts : List Char)
    (fileState : Option (List StoredRow)) (limitArg : Option Int) :
    ((run_events fetch detail ts fileState limitArg).filter isWrite).length ≤ 2 ∧
    (∀ st : List StoredRow, fileState = some st → (loadLinks st).Nodup →
      ((run_events fetch detail ts fileState limitArg).filter isWrite).length ≤ 1) ∧
    (∃ pre post, run_events fetch detail ts fileState limitArg = pre ++ post ∧
      (∀ e ∈ pre, isWrite e = false) ∧ (∀ e ∈ post, isWrite e = true)) ∧
    ((collectLoop fetch (effective_limit limitArg)).1.take
        (effective_limit limitArg).toNat = [] →
      run_events fetch detail ts fileState limitArg = []) := by
  have hevs : run_events fetch detail ts fileState limitArg =
      ((collectLoop fetch (effective_limit limitArg)).1.take
        (effective_limit limitArg).toNat).map Ev.enrichItem ++
        (if ((collectLoop fetch (effective_limit limitArg)).1.take
            (effective_limit limitArg).toNat).map (enrich_job detail) = [] then []
         else append_rows_events ts
           (((collectLoop fetch (effective_limit limitArg)).1.take
             (effective_limit limitArg).toNat).map (enrich_job detail)) fileState) := rfl
  have hfil : (run_events fetch detail ts fileState limitArg).filter isWrite =
      (if ((collectLoop fetch (effective_limit limitArg)).1.take
          (effective_limit limitArg).toNat).map (enrich_job detail) = [] then []
       else append_rows_events ts
         (((collectLoop fetch (effective_limit limitArg)).1.take
           (effective_limit limitArg).toNat).map (enrich_job detail)) fileState).filter
        isWrite := by
    rw [hevs, List.filter_append, enrich_events_no_writes, List.nil_append]
  refine ⟨?_, ?_, ?_, ?_⟩
  · rw [hfil]
    split
    · simp
    · exact le_trans (List.length_filter_le _ _) (append_rows_events_len2 ts _ fileState)
  · intro st hst hnd
    subst hst
    rw [hfil]
    split
    · simp
    · exact le_trans (List.length_filter_le _ _) (append_rows_events_len1 ts _ st hnd)
  · refine ⟨_, _, hevs, ?_, ?_⟩
    · intro e he
      obtain ⟨j, _, rfl⟩ := List.mem_map.mp he
      rfl
    · intro e he
      split at he
      · cases he
      · exact List.all_eq_true.mp (append_rows_events_writes ts _ fileState) e he
  · intro hk
    rw [hevs, hk]
    simp

/-- Witness for C3: the invariant-store bound applied to a run against an
existing duplicate-free store. -/
theorem C3_write_discipline_witness :
    ((run_events (fun _ => some [sampleJob ("z".toList)]) (fun _ => none) ("t".toList)
        (some [sampleRow ("x".toList)]) (some 1)).filter isWrite).length ≤ 1 :=
  (C3_write_discipline (fun _ => some [sampleJob ("z".toList)]) (fun _ => none)
    ("t".toList) (some [sampleRow ("x".toList)]) (some 1)).2.1
    [sampleRow ("x".toList)] rfl (by decide)

/-! ## C4: idempotence of a repeated cycle -/

/-- Identities present after an append (known beforehand or accepted in
the batch) are present in the resulting store contents. -/
theorem append_rows_links_mono (ts : List Char) (jobs : List JobPosting)
    (store : List StoredRow) (l : List Char)
    (hl : l ∈ loadLinks (store ++ acceptJobs ts (loadLinks store) jobs)) :
    l ∈ loadLinks (append_rows ts jobs store).1 := by
  simp only [append_rows]
  by_cases hacc : acceptJobs ts (loadLinks store) jobs = []
  · rw [if_pos hacc]
    dsimp only
    rw [hacc, List.append_nil] at hl
    exact hl
  · rw [if_neg hacc]
    dsimp only
    by_cases hrem : (deduplicate_csv (store ++ acceptJobs ts (loadLinks store) jobs)).2 = 0
    · rw [if_pos hrem]
      exact hl
    · rw [if_neg hrem]
      have hmem := dedupAux_mem_links [] (store ++ acceptJobs ts (loadLinks store) jobs) l hl
      simpa [deduplicate_csv] using hmem.resolve_left (by simp)

/-- When every incoming job's link is non-empty and already stored,
`append_rows` is a no-op returning 0. -/
theorem append_rows_skip_all (ts : List Char) (jobs : List JobPosting)
    (store : List StoredRow)
    (h : ∀ j ∈ jobs, pstrip j.job_link ≠ [] ∧ pstrip j.job_link ∈ loadLinks store) :
    append_rows ts jobs store = (store, 0) := by
  simp only [append_rows]
  rw [acceptJobs_all_skip ts jobs (loadLinks store) h]
  rw [if_pos rfl]

/-- Counterexample to C4 as stated: a single upstream candidate whose
parsed link is empty (a detail anchor with no `href` parses to the empty
link).  The store keeps accepting it — the second identical run appends
one row again and returns 1, not 0, growing the store to two rows. -/
theorem C4_idempotence_cex :
    (collect_and_persist (fun _ => some [sampleJob []]) (fun _ => none) ("t2".toList)
        (some (collect_and_persist (fun _ => some [sampleJob []]) (fun _ => none)
          ("t1".toList) (some []) (some 1)).1) (some 1)).2 = 1 ∧
    (collect_and_persist (fun _ => some [sampleJob []]) (fun _ => none) ("t2".toList)
        (some (collect_and_persist (fun _ => some [sampleJob []]) (fun _ => none)
          ("t1".toList) (some []) (some 1)).1) (some 1)).1.length = 2 := by
  constructor
  · decide
  · decide

/-- C4 (amended).  Re-running a full collection cycle against unchanged
upstream content over the store produced by the previous run appends zero
rows, returns 0 and leaves the store untouched, provided every collected
candidate carries a non-empty (whitespace-stripped) link; candidates with
an empty link are exempt from dedup and are re-appended by every run. -/
theorem C4_idempotence (fetch : Nat → Option (List JobPosting))
    (detail : JobPosting → Option (List Char)) (ts1 ts2 : List Char)
    (fileState : Option (List StoredRow)) (limitArg : Option Int)
    (h : ∀ j ∈ collect_jobs fetch detail (effective_limit limitArg),
      pstrip j.job_link ≠ []) :
    collect_and_persist fetch detail ts2
        (some (collect_and_persist fetch detail ts1 fileState limitArg).1) limitArg =
      ((collect_and_persist fetch detail ts1 fileState limitArg).1, 0) := by
  by_cases hempty : collect_jobs fetch detail (effective_limit limitArg) = []
  · have h1 : (collect_and_persist fetch detail ts1 fileState limitArg).1 =
        storeRows fileState := by
      simp only [collect_and_persist]
      rw [if_pos hempty]
    rw [h1]
    simp only [collect_and_persist]
    rw [if_pos hempty]
    rfl
  · set st1 := (collect_and_persist fetch detail ts1 fileState limitArg).1 with hst1def
    have h1 : st1 = (append_rows ts1 (collect_jobs fetch detail (effective_limit limitArg))
        (storeRows fileState)).1 := by
      rw [hst1def]
      simp only [collect_and_persist]
      rw [if_neg hempty]
    have hcover : ∀ j ∈ collect_jobs fetch detail (effective_limit limitArg),
        pstrip j.job_link ∈ loadLinks st1 := by
      intro j hjm
      rw [h1]
      apply append_rows_links_mono
      rw [loadLinks_append]
      rcases acceptJobs_covers ts1 (collect_jobs fetch detail (effective_limit limitArg))
          (loadLinks (storeRows fileState)) j hjm (h j hjm) with hx | hx
      · exact List.mem_append_left _ hx
      · exact List.mem_append_right _ hx
    simp only [collect_and_persist]
    rw [if_neg hempty]
    simp only [storeRows]
    exact append_rows_skip_all ts2 _ st1 fun j hj => ⟨h j hj, hcover j hj⟩

/-- Witness for C4: a one-candidate upstream with a non-empty link over an
initially empty store — the repeated run is a no-op returning 0. -/
theorem C4_idempotence_witness :
    collect_and_persist (fun _ => some [sampleJob ("x".toList)]) (fun _ => none)
        ("t2".toList)
        (some (collect_and_persist (fun _ => some [sampleJob ("x".toList)]) (fun _ => none)
          ("t1".toList) (some []) (some 1)).1) (some 1) =
      ((collect_and_persist (fun _ => some [sampleJob ("x".toList)]) (fun _ => none)
        ("t1".toList) (some []) (some 1)).1, 0) :=
  C4_idempotence (fun _ => some [sampleJob ("x".toList)]) (fun _ => none)
    ("t1".toList) ("t2".toList) (some []) (some 1) (by decide)

/-! ## Sanity of the matcher fuel -/

theorem starRun_length_le (p : Char → Bool) :
    ∀ (cs rem : List Char), rem ∈ starRun p cs → rem.length ≤ cs.length := by
  intro cs
  induction cs with
  | nil =>
    intro rem h
    rw [starRun, List.mem_singleton] at h
    simp [h]
  | cons c t ih =>
    intro rem h
    simp only [starRun] at h
    by_cases hp : p c
    · rw [if_pos hp] at h
      rcases List.mem_append.mp h with h | h
      · exact le_trans (ih rem h) (by simp)
      · rw [List.mem_singleton] at h
        simp [h]
    · rw [if_neg hp] at h
      rw [List.mem_singleton] at h
      simp [h]

theorem run_length_le (r : Rx) :
    ∀ (cs rem : List Char), rem ∈ run r cs → rem.length ≤ cs.length := by
  induction r with
  | eps =>
    intro cs rem h
    rw [run, List.mem_singleton] at h
    simp [h]
  | chr p =>
    intro cs rem h
    cases cs with
    | nil => cases h
    | cons c t =>
      simp only [run] at h
      by_cases hp : p c
      · rw [if_pos hp, List.mem_singleton] at h
        simp [h]
      · rw [if_neg hp] at h
        cases h
  | seq a b iha ihb =>
    intro cs rem h
    simp only [run, List.mem_flatMap] at h
    obtain ⟨mid, hmid, hrem⟩ := h
    exact le_trans (ihb mid rem hrem) (iha cs mid hmid)
  | alt a b iha ihb =>
    intro cs rem h
    simp only [run] at h
    rcases List.mem_append.mp h with h | h
    · exact iha cs rem h
    · exact ihb cs rem h
  | opt a iha =>
    intro cs rem h
    simp only [run] at h
    rcases List.mem_append.mp h with h | h
    · exact iha cs rem h
    · rw [List.mem_singleton] at h
      simp [h]
  | star p =>
    intro cs rem h
    simp only [run] at h
    exact starRun_length_le p cs rem h

theorem run_length_lt (r : Rx) :
    consumesPos r = true →
      ∀ (cs rem : List Char), rem ∈ run r cs → rem.length < cs.length := by
  induction r with
  | eps => intro h; simp [consumesPos] at h
  | chr p =>
    intro _ cs rem h
    cases cs with
    | nil => cases h
    | cons c t =>
      simp only [run] at h
      by_cases hp : p c
      · rw [if_pos hp, List.mem_singleton] at h
        simp [h, Nat.lt_succ_self]
      · rw [if_neg hp] at h
        cases h
  | seq a b iha ihb =>
    intro h cs rem hm
    simp only [run, List.mem_flatMap] at hm
    obtain ⟨mid, hmid, hrem⟩ := hm
    simp only [consumesPos, Bool.or_eq_true] at h
    rcases h with ha | hb
    · exact lt_of_le_of_lt (run_length_le b mid rem hrem) (iha ha cs mid hmid)
    · exact lt_of_lt_of_le (ihb hb mid rem hrem) (run_length_le a cs mid hmid)
  | alt a b iha ihb =>
    intro h cs rem hm
    simp only [consumesPos, Bool.and_eq_true] at h
    simp only [run] at hm
    rcases List.mem_append.mp hm with hm | hm
    · exact iha h.1 cs rem hm
    · exact ihb h.2 cs rem hm
  | opt a iha => intro h; simp [consumesPos] at h
  | star p => intro h; simp [consumesPos] at h

theorem matchFamAt_some_lt (r : Rx) (hr : consumesPos r = true) (prev : Option Char)
    (cs rem : List Char) (h : matchFamAt r prev cs = some rem) :
    rem.length < cs.length := by
  rw [matchFamAt] at h
  by_cases hbd : boundaryB prev cs.head? = true
  · rw [if_pos hbd] at h
    exact run_length_lt r hr cs rem (List.mem_of_find?_eq_some h)
  · rw [if_neg hbd] at h
    cases h

/-- Sanity check for the fuel of `findIterGo`: for a pattern that always
consumes input, any fuel of at least the length of the remaining text
yields the same matches, so the canonical `s.length` used by `findIter`
behaves exactly like Python's unbounded `finditer` scan. -/
theorem findIterGo_fuel_irrelevant (r : Rx) (hr : consumesPos r = true) :
    ∀ (f1 f2 : Nat) (prev : Option Char) (pos : Nat) (cs : List Char),
      cs.length ≤ f1 → cs.length ≤ f2 →
      findIterGo r f1 prev pos cs = findIterGo r f2 prev pos cs := by
  intro f1
  induction f1 with
  | zero =>
    intro f2 prev pos cs h1 _
    have hnil : cs = [] := List.length_eq_zero.mp (Nat.le_zero.mp h1)
    subst hnil
    cases f2 <;> rfl
  | succ n ih =>
    intro f2 prev pos cs h1 h2
    cases cs with
    | nil => cases f2 <;> rfl
    | cons c rest =>
      cases f2 with
      | zero => simp at h2
      | succ m =>
        simp only [findIterGo]
        cases hm : matchFamAt r prev (c :: rest) with
        | none =>
          dsimp only
          simp only [List.length_cons] at h1 h2
          exact ih m (some c) (pos + 1) rest (by omega) (by omega)
        | some rem =>
          dsimp only
          have hlt := matchFamAt_some_lt r hr prev (c :: rest) rem hm
          simp only [List.length_cons] at h1 h2 hlt
          rw [ih m (lastConsumed (c :: rest) rem)
            (pos + ((c :: rest).length - rem.length)) rem (by omega) (by omega)]

/-- The three degree pattern bodies always consume input. -/
theorem degree_patterns_consume :
    consumesPos bachelorRx = true ∧ consumesPos masterRx = true ∧
      consumesPos phdRx = true := by
  refine ⟨by decide, by decide, by decide⟩

/-! ## C5: degree precedence resolution -/

theorem foldl_min_eq (ds : List Degree) (d : Degree) :
    ds.foldl (fun a b => if rank b < rank a then b else a) d =
      (if Degree.Bachelor = d ∨ Degree.Bachelor ∈ ds then Degree.Bachelor
       else if Degree.Master = d ∨ Degree.Master ∈ ds then Degree.Master
       else Degree.PhD) := by
  induction ds generalizing d with
  | nil => cases d <;> simp
  | cons e t ih =>
    rw [List.foldl_cons, ih]
    cases d <;> cases e <;>
      by_cases hb : Degree.Bachelor ∈ t <;>
        by_cases hm : Degree.Master ∈ t <;>
          simp [rank, hb, hm]

/-- Python's `min` under the rank key agrees with the spec's "lowest rank
under Bachelor(0) < Master(1) < PhD(2)" selection. -/
theorem minLabel_eq_lowestRank (l : List Degree) : minLabel l = lowestRank l := by
  cases l with
  | nil => rfl
  | cons d ds =>
    rw [minLabel, foldl_min_eq, lowestRank]
    by_cases hb : Degree.Bachelor = d ∨ Degree.Bachelor ∈ ds
    · rw [if_pos hb, if_pos (List.mem_cons.mpr hb)]
    · rw [if_neg hb, if_neg (fun hc => hb (List.mem_cons.mp hc))]
      by_cases hm : Degree.Master = d ∨ Degree.Master ∈ ds
      · rw [if_pos hm, if_pos (List.mem_cons.mpr hm)]
      · rw [if_neg hm, if_neg (fun hc => hm (List.mem_cons.mp hc))]
        have hp : Degree.PhD ∈ d :: ds := by
          cases d
          · exact absurd (Or.inl rfl) hb
          · exact absurd (Or.inl rfl) hm
          · exact List.mem_cons_self _ _
        rw [if_pos hp]

/-- C5.  Degree classification resolves exactly as the spec words it:
tiers in the strict precedence order required → neutral → preferred, and
within the first non-empty tier the degree of lowest rank under
Bachelor(0) < Master(1) < PhD(2); on the concrete sample text the matches
are a required-context Bachelor and a preferred-context PhD and the result
is Bachelor; text with zero degree-pattern matches yields none (so the
posting keeps "Not specified"). -/
theorem C5_degree_resolution :
    (∀ text : List Char, extract_degree text = specResolve (matchTiers text)) ∧
    matchTiers degreeSampleText =
      [(Degree.Bachelor, Tier.required), (Degree.PhD, Tier.preferred)] ∧
    extract_degree degreeSampleText = some Degree.Bachelor ∧
    extract_degree ("nothing here".toList) = none := by
  refine ⟨?_, by decide, by decide, by decide⟩
  intro text
  simp only [extract_degree, specResolve, pickTier, minLabel_eq_lowestRank]
  by_cases hms : matchTiers text = []
  · rw [if_pos hms, hms]
    simp [lowestRank]
  · rw [if_neg hms]

/-! ## C6: years-of-experience cascade -/

/-- C6.  The three year patterns apply in fixed priority with the first
hit winning — a range reports its lower bound, the "of experience" form
and the generic fallback report their digits — and concretely:
`"3-5 years"` gives `"3 years"`, `"5+ years of experience"` gives
`"5 years"`, `"at least 7 years"` gives `"7 years"`, and text with no
numeric years mention gives none (the posting keeps "Not specified"). -/
theorem C6_years_cascade :
    extract_years ("3-5 years".toList) = some ("3 years".toList) ∧
    extract_years ("5+ years of experience".toList) = some ("5 years".toList) ∧
    extract_years ("at least 7 years".toList) = some ("7 years".toList) ∧
    extract_years ("no numeric mention here".toList) = none ∧
    (∀ t d, searchGo matchRangeAt t = some d →
      extract_years t = some (d ++ " years".toList)) ∧
    (∀ t d, searchGo matchRangeAt t = none → searchGo matchYearsAt t = some d →
      extract_years t = some (d ++ " years".toList)) ∧
    (∀ t d, searchGo matchRangeAt t = none → searchGo matchYearsAt t = none →
      searchGo matchFallbackAt t = some d →
      extract_years t = some (d ++ " years".toList)) ∧
    (∀ t, searchGo matchRangeAt t = none → searchGo matchYearsAt t = none →
      searchGo matchFallbackAt t = none → extract_years t = none) := by
  refine ⟨by decide, by decide, by decide, by decide, ?_, ?_, ?_, ?_⟩
  · intro t d h
    simp [extract_years, h]
  · intro t d h1 h2
    simp [extract_years, h1, h2]
  · intro t d h1 h2 h3
    simp [extract_years, h1, h2, h3]
  · intro t h1 h2 h3
    simp [extract_years, h1, h2, h3]

/-- Witness for C6: the range-pattern clause applied to `"3-5 years"`. -/
theorem C6_years_cascade_witness :
    extract_years ("3-5 years".toList) = some ("3".toList ++ " years".toList) :=
  C6_years_cascade.2.2.2.2.1 ("3-5 years".toList) ("3".toList) (by decide)

end Scraper
